import Mathlib

/-!
Shallow embedding of the wyrm reverse-mode autodifferentiation core
(src/lib.rs and src/nodes.rs), together with theorems settling the
specification claims.  `f32` values are modelled as exact rationals
(`ℚ`) except for the softmax development, which needs the exponential
function and is carried out over `ℝ`.  A matrix (`ndarray::Array2`)
is modelled as a list of rows.
-/

namespace Wyrm

/-- Model of `Arr = ndarray::Array2<f32>`: a list of rows. -/
abbrev Mat := List (List ℚ)

/-- Shape predicate: `m` has `r` rows, each of length `c`. -/
def MatShape (m : Mat) (r c : ℕ) : Prop :=
  m.length = r ∧ ∀ row ∈ m, row.length = c

/-- Zero-filled matrix of the given shape (`Arr::zeros`). -/
def zerosMat (r c : ℕ) : Mat :=
  List.replicate r (List.replicate c 0)

/-- Elementwise addition (`add_assign` / `map_assign_binary` with `+`). -/
def ewAdd (a b : Mat) : Mat :=
  List.zipWith (List.zipWith (· + ·)) a b

/-- Elementwise subtraction (`assign` followed by `sub_assign`). -/
def ewSub (a b : Mat) : Mat :=
  List.zipWith (List.zipWith (· - ·)) a b

/-- Elementwise multiplication (`assign` followed by `mul_assign`). -/
def ewMul (a b : Mat) : Mat :=
  List.zipWith (List.zipWith (· * ·)) a b

/-- Scale every element (`mul_assign` with a scalar). -/
def ewScale (k : ℚ) (a : Mat) : Mat :=
  a.map (fun row => row.map (fun v => k * v))

/-- Fill a buffer of the same shape as `m` with the constant `w`
(`val.map(|_| weight)` in `Variable::backward`). -/
def fillLike (m : Mat) (w : ℚ) : Mat :=
  m.map (fun row => row.map (fun _ => w))

/-- Model of the scalar-constant promotion value `operand * 0.0 + k`
from `impl_arithmetic_op` in src/lib.rs. -/
def constantLike (m : Mat) (k : ℚ) : Mat :=
  m.map (fun row => row.map (fun v => v * 0 + k))

/-- Number of columns, read off the first row (as `ndarray` shapes do). -/
def numCols (m : Mat) : ℕ :=
  (m.headD []).length

/-- Column `j` of a matrix. -/
def colOf (m : Mat) (j : ℕ) : List ℚ :=
  m.map (fun row => row.getD j 0)

/-- Dot product of two equal-length vectors (`numerics::simd_dot`
contract). -/
def dotL (x y : List ℚ) : ℚ :=
  (List.zipWith (· * ·) x y).sum

/-- Matrix product: entry `(i, j)` is the dot product of row `i` of `a`
with column `j` of `b` (the `general_mat_mul` contract with
`alpha = 1, beta = 0`). -/
def matMul (a b : Mat) : Mat :=
  a.map (fun row => (List.range (numCols b)).map (fun j => dotL row (colOf b j)))

/-- Transpose (`.t()` on a rectangular array). -/
def transposeM (m : Mat) : Mat :=
  (List.range (numCols m)).map (fun j => colOf m j)

/-- Row gather: `operand.value().select(Axis(0), indices)`. -/
def selectRows (m : Mat) (idx : List ℕ) : Mat :=
  idx.map (fun i => m.getD i [])

/-- Add `row` onto row `i` of `m` in place; out-of-range `i` leaves `m`
unchanged (the in-range case is the only one the code exercises). -/
def addRowAt (m : Mat) (i : ℕ) (row : List ℚ) : Mat :=
  m.set i (List.zipWith (· + ·) (m.getD i []) row)

/-- Scatter-add a sparse slot: row `k` of `g` is added onto row
`idx[k]` of `m`. -/
def scatterAdd (m : Mat) (idx : List ℕ) (g : Mat) : Mat :=
  (idx.zip g).foldl (fun acc p => addRowAt acc p.1 p.2) m

/-- Model of the free function `clamp` in src/lib.rs. -/
def clamp (x mn mx : ℚ) : ℚ :=
  if x > mx then mx else if x < mn then mn else x

/-- Model of `Variable::clip`: every element `v` of the cached value is
replaced by `100.0 * clamp(v, min, max)`. -/
def clipMat (mn mx : ℚ) (m : Mat) : Mat :=
  m.map (fun row => row.map (fun v => 100 * clamp v mn mx))

/-! ### Gradient accumulation (`GradientAccumulator` in src/nodes.rs) -/

/-- Model of `GradientAccumulator`. -/
structure GradientAccumulator where
  dense_shape : ℕ × ℕ
  dense_gradient : Option Mat
  sparse_gradient : List (List ℕ × Mat)
  has_dense : Bool
  has_sparse : Bool
deriving DecidableEq, Repr

/-- `GradientAccumulator::new`. -/
def GradientAccumulator.fresh (shape : ℕ × ℕ) : GradientAccumulator :=
  { dense_shape := shape
    dense_gradient := none
    sparse_gradient := []
    has_dense := false
    has_sparse := false }

/-- The lazily allocated dense buffer
(`GradientAccumulator::dense_gradient`). -/
def GradientAccumulator.denseBuffer (acc : GradientAccumulator) : Mat :=
  acc.dense_gradient.getD (zerosMat acc.dense_shape.1 acc.dense_shape.2)

/-- Dense accumulation (`GradientSink<&Ref<Arr>>`):
`dense_gradient().add_assign(g)` and set `has_dense`. -/
def accumulate_gradient_dense (acc : GradientAccumulator) (g : Mat) :
    GradientAccumulator :=
  { acc with
    dense_gradient := some (ewAdd acc.denseBuffer g)
    has_dense := true }

/-- The slot-insertion loop of `GradientSink<(&[usize], &Arr)>`: the
first slot whose index list is empty is overwritten, otherwise a new
slot is appended. -/
def insertSparse : List (List ℕ × Mat) → List ℕ → Mat → List (List ℕ × Mat)
  | [], idx, g => [(idx, g)]
  | (iv, buf) :: rest, idx, g =>
    if iv.isEmpty then (iv ++ idx, g) :: rest
    else (iv, buf) :: insertSparse rest idx g

/-- Sparse accumulation (`GradientSink<(&[usize], &Arr)>`): set
`has_sparse` and insert into the slot list. -/
def accumulate_gradient_sparse (acc : GradientAccumulator) (idx : List ℕ)
    (g : Mat) : GradientAccumulator :=
  { acc with
    sparse_gradient := insertSparse acc.sparse_gradient idx g
    has_sparse := true }

/-- Zero a matrix buffer in place (`fill(0.0)`). -/
def fillZero (m : Mat) : Mat :=
  m.map (fun row => row.map (fun _ => 0))

/-- Model of `GradientAccumulator::zero_gradient`: if dense data is
present, the dense buffer is zero-filled; if sparse data is present,
every slot's index list is cleared and its buffer zero-filled; both
flags are reset.  No slot is removed. -/
def zero_gradient (acc : GradientAccumulator) : GradientAccumulator :=
  { acc with
    dense_gradient :=
      if acc.has_dense then some (fillZero acc.denseBuffer)
      else acc.dense_gradient
    sparse_gradient :=
      if acc.has_sparse then
        acc.sparse_gradient.map (fun s => (([] : List ℕ), fillZero s.2))
      else acc.sparse_gradient
    has_dense := false
    has_sparse := false }

/-- Modelled from the spec: `GradientAccumulator::materialized_gradient`
is called by `Variable::<ParameterNode>::gradient` in src/lib.rs but its
definition is not under src/.  Per the spec (section 4.3), materializing
combines the dense buffer with every active sparse slot scattered onto
the appropriate rows of a zero-filled array of the parameter's shape. -/
def materialized_gradient (acc : GradientAccumulator) : Mat :=
  acc.sparse_gradient.foldl (fun m s => scatterAdd m s.1 s.2)
    (if acc.has_dense then acc.denseBuffer
     else zerosMat acc.dense_shape.1 acc.dense_shape.2)

/-! ### Parameter-list merging (`merge_parameters` in src/lib.rs) -/

/-- Model of `merge_parameters`: parameter handles are identified by the
address of their node, modelled as a natural-number identity; the two
(identity-sorted) lists are merged with `merge_join_by`, keeping a
single copy when both sides hold the same node. -/
def merge_parameters : List ℕ → List ℕ → List ℕ
  | [], ys => ys
  | x :: xs, [] => x :: xs
  | x :: xs, y :: ys =>
    if x < y then x :: merge_parameters xs (y :: ys)
    else if y < x then y :: merge_parameters (x :: xs) ys
    else x :: merge_parameters xs ys
termination_by xs ys => xs.length + ys.length

/-- One accumulator event: a dense contribution, a sparse contribution,
or an explicit reset.  Used to quantify over "every prior history of
dense and sparse accumulations". -/
inductive GradEvent where
  | dense (g : Mat)
  | sparse (idx : List ℕ) (g : Mat)
  | zero
deriving Repr

/-- Apply one event to an accumulator. -/
def stepEvent (acc : GradientAccumulator) : GradEvent → GradientAccumulator
  | .dense g => accumulate_gradient_dense acc g
  | .sparse idx g => accumulate_gradient_sparse acc idx g
  | .zero => zero_gradient acc

/-- Run a history of events on a fresh accumulator. -/
def runEvents (shape : ℕ × ℕ) (evs : List GradEvent) : GradientAccumulator :=
  evs.foldl stepEvent (GradientAccumulator.fresh shape)

/-! ### The computation graph

Graph nodes are built bottom-up (`XNode::new`), caching a value at
construction time; `forward` recomputes the caches postorder;
`backward` pushes gradients down using the operands' *current* values
(cached for operator nodes, read live for leaves) and accumulates at
`ParameterNode` leaves.  Leaves are identified by numbers so that the
same leaf used twice is shared, as `Rc` sharing does in the source. -/

/-- Graph shapes, before construction-time caches are attached.
`index` is the `IndexNode<ParameterNode>` embedding gather. -/
inductive Expr where
  | input (id : ℕ)
  | param (id : ℕ)
  | add (l r : Expr)
  | sub (l r : Expr)
  | mul (l r : Expr)
  | dot (l r : Expr)
  | index (pid iid : ℕ)
deriving Repr

/-- A constructed graph: every operator node carries its cached value
(`value: RefCell<Arr>`), and an Index node additionally carries the
captured index list (`index_value`). -/
inductive CExpr where
  | input (id : ℕ)
  | param (id : ℕ)
  | add (cache : Mat) (l r : CExpr)
  | sub (cache : Mat) (l r : CExpr)
  | mul (cache : Mat) (l r : CExpr)
  | dot (cache : Mat) (l r : CExpr)
  | index (cache : Mat) (captured : List ℕ) (pid iid : ℕ)
deriving Repr

/-- The live state of the leaves: dense input values, parameter values
and index-input lists, addressed by leaf identity. -/
structure Env where
  inputs : ℕ → Mat
  params : ℕ → Mat
  indices : ℕ → List ℕ

/-- Current value of a node (`Node::value`): operator nodes return
their cache, leaves return the live backing store. -/
def cvalue (env : Env) : CExpr → Mat
  | .input id => env.inputs id
  | .param id => env.params id
  | .add cache _ _ => cache
  | .sub cache _ _ => cache
  | .mul cache _ _ => cache
  | .dot cache _ _ => cache
  | .index cache _ _ _ => cache

/-- Graph construction (the `XNode::new` functions), computing each
construction-time cache from the operands' values.  Note that
`SubNode::new` in src/nodes.rs computes `lhs.value() + rhs.value()`,
so the `sub` cache is built with `ewAdd`. -/
def construct (env : Env) : Expr → CExpr
  | .input id => .input id
  | .param id => .param id
  | .add l r =>
    let cl := construct env l
    let cr := construct env r
    .add (ewAdd (cvalue env cl) (cvalue env cr)) cl cr
  | .sub l r =>
    let cl := construct env l
    let cr := construct env r
    .sub (ewAdd (cvalue env cl) (cvalue env cr)) cl cr
  | .mul l r =>
    let cl := construct env l
    let cr := construct env r
    .mul (ewMul (cvalue env cl) (cvalue env cr)) cl cr
  | .dot l r =>
    let cl := construct env l
    let cr := construct env r
    .dot (matMul (cvalue env cl) (cvalue env cr)) cl cr
  | .index pid iid =>
    .index (selectRows (env.params pid) (env.indices iid))
      (env.indices iid) pid iid

/-- The forward pass (`Node::forward`): operands first, then this
node's cache is recomputed from their current values; the Index node
recaptures its index list. -/
def forwardC (env : Env) : CExpr → CExpr
  | .input id => .input id
  | .param id => .param id
  | .add _ l r =>
    let cl := forwardC env l
    let cr := forwardC env r
    .add (ewAdd (cvalue env cl) (cvalue env cr)) cl cr
  | .sub _ l r =>
    let cl := forwardC env l
    let cr := forwardC env r
    .sub (ewSub (cvalue env cl) (cvalue env cr)) cl cr
  | .mul _ l r =>
    let cl := forwardC env l
    let cr := forwardC env r
    .mul (ewMul (cvalue env cl) (cvalue env cr)) cl cr
  | .dot _ l r =>
    let cl := forwardC env l
    let cr := forwardC env r
    .dot (matMul (cvalue env cl) (cvalue env cr)) cl cr
  | .index _ _ pid iid =>
    .index (selectRows (env.params pid) (env.indices iid))
      (env.indices iid) pid iid

/-- Per-parameter gradient state of the graph. -/
def PState := ℕ → GradientAccumulator

/-- The backward pass (`Node::backward`).  Operand gradients are
computed from the operands' current values exactly as in src/nodes.rs:
`add` passes the gradient through to both sides; `sub` negates it for
the right side; `mul` scales by the other operand's value; `dot`
multiplies by the transposed other operand; a parameter accumulates a
dense contribution, an Index node a sparse one using its captured
index list. -/
def backwardC (env : Env) : CExpr → Mat → PState → PState
  | .input _, _, st => st
  | .param pid, g, st =>
    fun q => if q = pid then accumulate_gradient_dense (st q) g else st q
  | .add _ l r, g, st => backwardC env r g (backwardC env l g st)
  | .sub _ l r, g, st =>
    backwardC env r (ewScale (-1) g) (backwardC env l g st)
  | .mul _ l r, g, st =>
    let lg := ewMul (cvalue env r) g
    let rg := ewMul (cvalue env l) g
    backwardC env r rg (backwardC env l lg st)
  | .dot _ l r, g, st =>
    let lg := matMul g (transposeM (cvalue env r))
    let rg := matMul (transposeM (cvalue env l)) g
    backwardC env r rg (backwardC env l lg st)
  | .index _ captured pid _, g, st =>
    fun q => if q = pid then accumulate_gradient_sparse (st q) captured g else st q

/-- Model of `Variable::backward(weight)`: a gradient buffer of the
node's current value shape is filled with `weight` and passed to the
node's `backward`.  No forward pass is run. -/
def variable_backward (env : Env) (c : CExpr) (w : ℚ) (st : PState) : PState :=
  backwardC env c (fillLike (cvalue env c) w) st

/-- Model of `Variable::zero_gradient`: reset every parameter in the
handle's parameter list. -/
def variable_zero_gradient (ids : List ℕ) (st : PState) : PState :=
  ids.foldl (fun s pid => fun q => if q = pid then zero_gradient (s q) else s q) st

/-- A parameter state in which every parameter has a fresh accumulator
of the given shape. -/
def freshPState (shape : ℕ × ℕ) : PState :=
  fun _ => GradientAccumulator.fresh shape

/-! ### Softmax (`SoftmaxNode::forward` in src/nodes.rs), over `ℝ` -/

/-- Real-valued matrix, for the softmax development. -/
abbrev MatR := List (List ℝ)

/-- The most negative finite `f32` (`std::f32::MIN`), the fold seed for
the maximum. -/
def f32_min : ℝ := -340282346638528859811704183484516925440

/-- The shift used by `SoftmaxNode::forward`: the maximum over *all*
entries of the array, seeded with `f32::MIN`. -/
def globalMax (m : MatR) : ℝ :=
  m.flatten.foldl max f32_min

/-- Sum of all entries (`scalar_sum`). -/
def totalSum (m : MatR) : ℝ :=
  (m.map (fun row => row.sum)).sum

/-- Model of `SoftmaxNode::forward`: shift every entry by the global
maximum, exponentiate, then divide by the sum over the whole array. -/
noncomputable def softmax_forward (m : MatR) : MatR :=
  let mx := globalMax m
  let e := m.map (fun row => row.map (fun x => Real.exp (x - mx)))
  let d := totalSum e
  e.map (fun row => row.map (fun x => x / d))

/-! ### Concrete scenarios from the claims -/

/-- The all-ones `[10, 10]` parameter value of `test_constant_sub`. -/
def xOnes : Mat := List.replicate 10 (List.replicate 10 1)

/-- Environment holding the first promoted constant (`x.value * 0 + 1`,
the broadcast `1.0`) and the parameter `x`. -/
def envC1a : Env :=
  { inputs := fun _ => constantLike xOnes 1
    params := fun _ => xOnes
    indices := fun _ => [] }

/-- The subgraph `1.0 - x`: the promoted constant is the left operand. -/
def subExprC1 : Expr := .sub (.input 0) (.param 0)

/-- The constructed `1.0 - x` node. -/
def subBuiltC1 : CExpr := construct envC1a subExprC1

/-- Environment after promoting the second constant
(`sub.value() * 0 + 2`, the broadcast `2.0`, shaped from the `sub`
node's cached value at that moment). -/
def envC1 : Env :=
  { inputs := fun n =>
      if n = 0 then constantLike xOnes 1
      else constantLike (cvalue envC1a subBuiltC1) 2
    params := fun _ => xOnes
    indices := fun _ => [] }

/-- The full scenario graph `y = (1.0 - x) * 2.0`. -/
def yExprC1 : Expr := .mul subExprC1 (.input 1)

/-- The constructed scenario graph. -/
def yBuiltC1 : CExpr := construct envC1 yExprC1

/-- The graph `z = (x + x) * p` used to probe whether `backward` reruns
the forward pass: `x` is a dense input leaf, `p` a parameter. -/
def zExprC2 : Expr := .mul (.add (.input 0) (.input 0)) (.param 0)

/-- Environment for the staleness probe: input `x = [[a]]`, parameter
`p = [[pv]]`. -/
def envC2 (a pv : ℚ) : Env :=
  { inputs := fun _ => [[a]]
    params := fun _ => [[pv]]
    indices := fun _ => [] }

/-- Environment for the sparse-accumulation scenario: one parameter of
value `pv`, and every index leaf holding the single row index `r`. -/
def envC6 (pv : Mat) (r : ℕ) : Env :=
  { inputs := fun _ => []
    params := fun _ => pv
    indices := fun _ => [r] }

/-- The sparse-accumulation graph: the same parameter gathered through
two distinct index leaves, summed downstream. -/
def yExprC6 : Expr := .add (.index 0 0) (.index 0 1)

/-- Environment for the Dot claim: parameter `0` holds the left
operand, parameter `1` the right operand. -/
def envDot (lv rv : Mat) : Env :=
  { inputs := fun _ => []
    params := fun p => if p = 0 then lv else rv
    indices := fun _ => [] }

/-- The graph consisting of a single Dot node over two parameters. -/
def dotExprC7 : Expr := .dot (.param 0) (.param 1)

/-- Fresh accumulators shaped for the two Dot operands. -/
def stDot (m k n : ℕ) : PState :=
  fun q => if q = 0 then .fresh (m, k) else .fresh (k, n)

/-- A sparse slot is clear when its index list is empty and its buffer
all-zero. -/
def slotClear (s : List ℕ × Mat) : Bool :=
  s.1.isEmpty && s.2.all (fun row => row.all (fun q => decide (q = 0)))

/-- Accumulator invariant maintained by every event history: when the
sparse flag is down, every sparse slot is clear. -/
def SparseInv (acc : GradientAccumulator) : Prop :=
  acc.has_sparse = false → acc.sparse_gradient.all slotClear = true

/-! ## Helper lemmas -/

theorem mem_merge_parameters (xs ys : List ℕ) (a : ℕ) :
    a ∈ merge_parameters xs ys ↔ a ∈ xs ∨ a ∈ ys := by
  induction xs, ys using merge_parameters.induct with
  | case1 ys => simp [merge_parameters]
  | case2 x xs => simp [merge_parameters]
  | case3 x xs y ys h ih => rw [merge_parameters]; simp [h, ih]; tauto
  | case4 x xs y ys h h2 ih => rw [merge_parameters]; simp [h, h2, ih]; tauto
  | case5 x xs y ys h h2 ih =>
    rw [merge_parameters]; simp [h, h2, ih]
    have hxy : x = y := le_antisymm (not_lt.mp h2) (not_lt.mp h)
    subst hxy; tauto

theorem sorted_merge_parameters (xs ys : List ℕ)
    (hx : xs.Sorted (· < ·)) (hy : ys.Sorted (· < ·)) :
    (merge_parameters xs ys).Sorted (· < ·) := by
  induction xs, ys using merge_parameters.induct with
  | case1 ys => simpa [merge_parameters] using hy
  | case2 x xs => simpa [merge_parameters] using hx
  | case3 x xs y ys h ih =>
    rw [merge_parameters, if_pos h, List.sorted_cons]
    rw [List.sorted_cons] at hx
    refine ⟨?_, ih hx.2 hy⟩
    intro b hb
    rcases (mem_merge_parameters _ _ b).mp hb with hbx | hby
    · exact hx.1 b hbx
    · rcases List.mem_cons.mp hby with rfl | hby2
      · exact h
      · exact lt_trans h ((List.sorted_cons.mp hy).1 b hby2)
  | case4 x xs y ys h h2 ih =>
    rw [merge_parameters, if_neg h, if_pos h2, List.sorted_cons]
    rw [List.sorted_cons] at hy
    refine ⟨?_, ih hx hy.2⟩
    intro b hb
    rcases (mem_merge_parameters _ _ b).mp hb with hbx | hby
    · rcases List.mem_cons.mp hbx with rfl | hbx2
      · exact h2
      · exact lt_trans h2 ((List.sorted_cons.mp hx).1 b hbx2)
    · exact hy.1 b hby
  | case5 x xs y ys h h2 ih =>
    have hxy : x = y := le_antisymm (not_lt.mp h2) (not_lt.mp h)
    subst hxy
    rw [merge_parameters, if_neg h, if_neg h2, List.sorted_cons]
    rw [List.sorted_cons] at hx
    rw [List.sorted_cons] at hy
    refine ⟨?_, ih hx.2 hy.2⟩
    intro b hb
    rcases (mem_merge_parameters _ _ b).mp hb with hbx | hby
    · exact hx.1 b hbx
    · exact hy.1 b hby

theorem mem_insertSparse (slots : List (List ℕ × Mat)) (idx : List ℕ) (g : Mat) :
    (idx, g) ∈ insertSparse slots idx g := by
  induction slots with
  | nil => simp [insertSparse]
  | cons s rest ih =>
    obtain ⟨iv, buf⟩ := s
    by_cases h : iv.isEmpty
    · have hiv : iv = [] := List.isEmpty_iff.mp h
      simp [insertSparse, h, hiv]
    · simp [insertSparse, h, ih]

theorem length_insertSparse (slots : List (List ℕ × Mat)) (idx : List ℕ)
    (g : Mat) :
    (insertSparse slots idx g).length =
      if slots.any (fun s => s.1.isEmpty) then slots.length
      else slots.length + 1 := by
  induction slots with
  | nil => simp [insertSparse]
  | cons s rest ih =>
    obtain ⟨iv, buf⟩ := s
    by_cases h : iv.isEmpty
    · simp [insertSparse, h]
    · by_cases h2 : rest.any (fun s => s.1.isEmpty) <;>
        simp [insertSparse, h, h2, ih]

theorem sparseInv_step (acc : GradientAccumulator) (e : GradEvent)
    (h : SparseInv acc) : SparseInv (stepEvent acc e) := by
  cases e with
  | dense g =>
    intro hs
    exact h hs
  | sparse idx g =>
    intro hs
    simp [stepEvent, accumulate_gradient_sparse] at hs
  | zero =>
    intro _
    by_cases hs : acc.has_sparse
    · simp [stepEvent, zero_gradient, hs, slotClear, fillZero, List.all_map,
        Function.comp_def]
    · have hsf : acc.has_sparse = false := by simpa using hs
      simpa [stepEvent, zero_gradient, hsf] using h hsf

theorem sparseInv_runEvents (shape : ℕ × ℕ) (evs : List GradEvent) :
    SparseInv (runEvents shape evs) := by
  rw [runEvents]
  have hgen : ∀ acc, SparseInv acc → SparseInv (evs.foldl stepEvent acc) := by
    induction evs with
    | nil => intro acc h; exact h
    | cons e rest ih => intro acc h; exact ih _ (sparseInv_step acc e h)
  exact hgen _ (by intro _; rfl)

theorem zero_gradient_clears (acc : GradientAccumulator) (h : SparseInv acc) :
    (zero_gradient acc).sparse_gradient.all slotClear = true := by
  by_cases hs : acc.has_sparse
  · simp [zero_gradient, hs, slotClear, fillZero, List.all_map,
      Function.comp_def]
  · have hsf : acc.has_sparse = false := by simpa using hs
    simpa [zero_gradient, hsf] using h hsf

theorem foldl_scatter_clear (slots : List (List ℕ × Mat)) (b : Mat)
    (h : slots.all slotClear = true) :
    slots.foldl (fun m s => scatterAdd m s.1 s.2) b = b := by
  induction slots generalizing b with
  | nil => rfl
  | cons s rest ih =>
    simp only [List.all_cons, Bool.and_eq_true, slotClear] at h
    have h1 : s.1 = [] := List.isEmpty_iff.mp h.1.1
    simp only [List.foldl_cons, scatterAdd, h1, List.zip_nil_left,
      List.foldl_nil]
    exact ih _ h.2

theorem dense_shape_runEvents (shape : ℕ × ℕ) (evs : List GradEvent) :
    (runEvents shape evs).dense_shape = shape := by
  rw [runEvents]
  have hgen : ∀ acc : GradientAccumulator,
      (evs.foldl stepEvent acc).dense_shape = acc.dense_shape := by
    induction evs with
    | nil => intro acc; rfl
    | cons e rest ih =>
      intro acc
      rw [List.foldl_cons, ih]
      cases e <;> rfl
  exact hgen _

theorem getD_set_self_helper (l : List (List ℚ)) (i : ℕ) (a : List ℚ)
    (h : i < l.length) : (l.set i a).getD i [] = a := by
  rw [List.getD_eq_getElem _ [] (by simpa using h)]
  exact List.getElem_set_self (by simpa using h)

theorem getD_zerosMat (rows cols r : ℕ) (h : r < rows) :
    (zerosMat rows cols).getD r [] = List.replicate cols 0 := by
  rw [zerosMat, List.getD_eq_getElem _ [] (by simpa using h)]
  exact List.getElem_replicate ..

theorem zipWith_add_replicate (c : ℕ) (a b : ℚ) :
    List.zipWith (· + ·) (List.replicate c a) (List.replicate c b) =
      List.replicate c (a + b) := by
  simp [List.zipWith_replicate]

theorem matShape_matMul (a b : Mat) :
    MatShape (matMul a b) a.length (numCols b) := by
  constructor
  · simp [matMul]
  · intro row hrow
    simp only [matMul, List.mem_map] at hrow
    obtain ⟨arow, _, h⟩ := hrow
    rw [← h]
    simp

theorem numCols_of_shape (m : Mat) (r c : ℕ) (h : MatShape m r c)
    (hr : 0 < r) : numCols m = c := by
  cases m with
  | nil => rw [← h.1] at hr; simp at hr
  | cons h0 t => exact h.2 h0 (List.mem_cons_self h0 t)

theorem length_transposeM (m : Mat) : (transposeM m).length = numCols m := by
  simp [transposeM]

theorem numCols_transposeM (m : Mat) (h : 0 < numCols m) :
    numCols (transposeM m) = m.length := by
  obtain ⟨k, hk⟩ : ∃ k, numCols m = k + 1 :=
    ⟨numCols m - 1, (Nat.succ_pred_eq_of_pos h).symm⟩
  rw [transposeM, hk, List.range_succ_eq_map]
  simp [numCols, colOf]

theorem zipWith_add_zeros_row (l : List ℚ) :
    List.zipWith (· + ·) (List.replicate l.length 0) l = l := by
  induction l with
  | nil => rfl
  | cons a t ih => simp only [List.length_cons, List.replicate_succ,
      List.zipWith_cons_cons, zero_add, ih]

theorem ewAdd_zeros (x : Mat) (c : ℕ) (h : ∀ row ∈ x, row.length = c) :
    ewAdd (zerosMat x.length c) x = x := by
  induction x with
  | nil => rfl
  | cons row t ih =>
    have hrow : row.length = c := h row (List.mem_cons_self row t)
    have hhead : List.zipWith (· + ·) (List.replicate c 0) row = row := by
      rw [← hrow]; exact zipWith_add_zeros_row row
    rw [List.length_cons, zerosMat, List.replicate_succ, ewAdd,
      List.zipWith_cons_cons, hhead]
    have ht := ih (fun r hr => h r (List.mem_cons_of_mem row hr))
    rw [ewAdd, zerosMat] at ht
    rw [ht]

theorem sum_map_div (l : List ℝ) (d : ℝ) :
    (l.map (fun x => x / d)).sum = l.sum / d := by
  induction l with
  | nil => simp
  | cons a t ih => simp [ih, add_div]

theorem totalSum_eq_flatten_sum (m : MatR) : totalSum m = m.flatten.sum := by
  rw [totalSum, List.sum_flatten]

theorem totalSum_map_div (m : MatR) (d : ℝ) :
    totalSum (m.map (fun row => row.map (fun x => x / d))) = totalSum m / d := by
  rw [totalSum_eq_flatten_sum, totalSum_eq_flatten_sum, ← List.map_flatten,
    sum_map_div]

/-! ## Theorems settling the claims -/

/-- C1: in the scenario with `x` the all-ones `[10, 10]` parameter and
`y = (1 - x) * 2`, the value cached at construction is `4` at every
element (because `SubNode::new` computes `lhs + rhs`, contradicting the
repository's own `test_constant_sub`, which asserts
`y.value().scalar_sum() == 0.0` before any forward pass); after
`forward()` the value is all zeros and after `backward(1.0)` the
accumulated dense gradient of `x` is `-2` at every element, as the
claim states. -/
theorem C1_constant_sub_scenario :
    cvalue envC1 yBuiltC1 = List.replicate 10 (List.replicate 10 4) ∧
    cvalue envC1 (forwardC envC1 yBuiltC1) = zerosMat 10 10 ∧
    ((variable_backward envC1 (forwardC envC1 yBuiltC1) 1
        (freshPState (10, 10))) 0).dense_gradient =
      some (List.replicate 10 (List.replicate 10 (-2))) := by
  refine ⟨?_, ?_, ?_⟩ <;>
    norm_num [yBuiltC1, envC1, envC1a, subBuiltC1, yExprC1, subExprC1, xOnes,
      construct, cvalue, constantLike, forwardC, variable_backward, backwardC,
      fillLike, ewAdd, ewSub, ewMul, ewScale, accumulate_gradient_dense,
      GradientAccumulator.denseBuffer, freshPState, GradientAccumulator.fresh,
      zerosMat, List.zipWith_replicate, List.map_replicate]

/-- C2 counterexample: for the graph `z = (x + x) * p` built with
`x = [[2]]`, `p = [[3]]`, changing the input leaf to `x = [[5]]` and
calling `backward(1.0)` with no intervening `forward()` accumulates
`[[4]]` into `p` (the stale cached value of `x + x`), whereas running
`forward()` first accumulates `[[10]]`: `backward` alone does not
compute gradients from the new leaf values. -/
theorem C2_counterexample :
    ((variable_backward (envC2 5 3) (construct (envC2 2 3) zExprC2) 1
        (freshPState (1, 1))) 0).dense_gradient = some [[4]] ∧
    ((variable_backward (envC2 5 3)
        (forwardC (envC2 5 3) (construct (envC2 2 3) zExprC2)) 1
        (freshPState (1, 1))) 0).dense_gradient = some [[10]] ∧
    (some ([[4]] : Mat) : Option Mat) ≠ some [[10]] := by
  refine ⟨?_, ?_, ?_⟩ <;>
    norm_num [variable_backward, backwardC, construct, forwardC, cvalue,
      envC2, zExprC2, fillLike, ewMul, ewAdd, ewScale,
      accumulate_gradient_dense, GradientAccumulator.denseBuffer,
      freshPState, GradientAccumulator.fresh, zerosMat]

/-- C2 (amended): `Variable::backward` does not force a fresh forward
pass.  For the graph `z = (x + x) * p` built with `x = [[a]]`, after
the input leaf is changed to `[[b]]`, `backward(1.0)` alone accumulates
the stale cached sum `a + a` into `p`, while `forward()` followed by
`backward(1.0)` accumulates `b + b`; `clear()`/`forward()` is therefore
required whenever leaf inputs change, whether or not `backward` is
called. -/
theorem C2_backward_uses_stale_caches (a b pv : ℚ) :
    ((variable_backward (envC2 b pv) (construct (envC2 a pv) zExprC2) 1
        (freshPState (1, 1))) 0).dense_gradient = some [[a + a]] ∧
    ((variable_backward (envC2 b pv)
        (forwardC (envC2 b pv) (construct (envC2 a pv) zExprC2)) 1
        (freshPState (1, 1))) 0).dense_gradient = some [[b + b]] := by
  constructor <;>
    simp [variable_backward, backwardC, construct, forwardC, cvalue,
      envC2, zExprC2, fillLike, ewMul, ewAdd, ewScale,
      accumulate_gradient_dense, GradientAccumulator.denseBuffer,
      freshPState, GradientAccumulator.fresh, zerosMat]

/-- C4: a handle's parameter list is the identity-deduplicated union of
its operands' lists: merging identity-sorted lists yields a sorted,
duplicate-free list whose members are exactly the union; in particular,
for parameters `x`, `y` (identities `0`, `1`), `z = x + y` and
`w = z.clone() + z.clone()`, the parameter list of `w` is `[0, 1]`,
with exactly 2 entries. -/
theorem C4_parameter_deduplication :
    (∀ xs ys : List ℕ, xs.Sorted (· < ·) → ys.Sorted (· < ·) →
      (merge_parameters xs ys).Sorted (· < ·) ∧
      (merge_parameters xs ys).Nodup ∧
      ∀ a, a ∈ merge_parameters xs ys ↔ a ∈ xs ∨ a ∈ ys) ∧
    merge_parameters (merge_parameters [0] [1]) (merge_parameters [0] [1]) =
      [0, 1] ∧
    (merge_parameters (merge_parameters [0] [1])
      (merge_parameters [0] [1])).length = 2 := by
  refine ⟨fun xs ys hx hy => ?_, by norm_num [merge_parameters], by norm_num [merge_parameters]⟩
  exact ⟨sorted_merge_parameters xs ys hx hy,
    (sorted_merge_parameters xs ys hx hy).nodup,
    fun a => mem_merge_parameters xs ys a⟩

/-- C4 witness: the general deduplication statement applied to the
concrete sorted singleton lists `[0]` and `[1]`. -/
theorem C4_parameter_deduplication_witness :
    ([0] : List ℕ).Sorted (· < ·) ∧ ([1] : List ℕ).Sorted (· < ·) ∧
    ((merge_parameters [0] [1]).Nodup ∧
      ∀ a, a ∈ merge_parameters [0] [1] ↔ a ∈ ([0] : List ℕ) ∨ a ∈ ([1] : List ℕ)) :=
  ⟨by decide, by decide,
    (C4_parameter_deduplication.1 [0] [1] (by decide) (by decide)).2⟩

/-- C10: `clip(min, max)` maps each element `v` of the cached value to
`100.0 * clamp(v, min, max)`; in particular on a matrix whose elements
all lie inside `[min, max]` it multiplies every element by exactly 100
rather than leaving the value unchanged. -/
theorem C10_clip_scales_by_100 (mn mx : ℚ) (m : Mat)
    (hb : ∀ row ∈ m, ∀ v ∈ row, mn ≤ v ∧ v ≤ mx) :
    clipMat mn mx m = ewScale 100 m := by
  unfold clipMat ewScale
  refine List.map_congr_left fun row hrow => List.map_congr_left fun v hv => ?_
  have h1 := (hb row hrow v hv).1
  have h2 := (hb row hrow v hv).2
  unfold clamp
  rw [if_neg (not_lt.mpr h2), if_neg (not_lt.mpr h1)]

/-- C10 witness: clipping `[[1/2]]` into `[0, 1]` yields `[[50]]`, a
hundredfold scaling of the in-bounds element, not the identity. -/
theorem C10_clip_scales_by_100_witness :
    (∀ row ∈ ([[(1 : ℚ)/2]] : Mat), ∀ v ∈ row, 0 ≤ v ∧ v ≤ 1) ∧
    clipMat 0 1 [[(1 : ℚ)/2]] = ewScale 100 [[(1 : ℚ)/2]] ∧
    ewScale 100 [[(1 : ℚ)/2]] = [[50]] ∧
    ([[50]] : Mat) ≠ [[(1 : ℚ)/2]] := by
  refine ⟨by norm_num, C10_clip_scales_by_100 0 1 _ (by norm_num), ?_, ?_⟩
  · norm_num [ewScale]
  · norm_num

/-- C5: backward through an Index node writes exactly one sparse
contribution (the captured index list with the gradient rows) into the
parameter's accumulator: the dense buffer and `has_dense` flag of every
parameter are unchanged, parameters other than the indexed one are
untouched, and the indexed parameter ends with `has_sparse` set and the
pair `(captured, g)` present in its sparse slot list. -/
theorem C5_index_backward_sparse_frame (env : Env) (st : PState)
    (cache : Mat) (captured : List ℕ) (pid iid : ℕ) (g : Mat) :
    (∀ q, ((backwardC env (.index cache captured pid iid) g st) q).dense_gradient
        = (st q).dense_gradient ∧
      ((backwardC env (.index cache captured pid iid) g st) q).has_dense
        = (st q).has_dense) ∧
    (backwardC env (.index cache captured pid iid) g st) pid
      = accumulate_gradient_sparse (st pid) captured g ∧
    (∀ q, q ≠ pid →
      (backwardC env (.index cache captured pid iid) g st) q = st q) ∧
    ((backwardC env (.index cache captured pid iid) g st) pid).has_sparse
      = true ∧
    (captured, g) ∈
      ((backwardC env (.index cache captured pid iid) g st) pid).sparse_gradient := by
  refine ⟨fun q => ?_, ?_, fun q hq => ?_, ?_, ?_⟩
  · by_cases h : q = pid <;> simp [backwardC, h, accumulate_gradient_sparse]
  · simp [backwardC]
  · simp [backwardC, hq]
  · simp [backwardC, accumulate_gradient_sparse]
  · simp only [backwardC, if_pos rfl, accumulate_gradient_sparse]
    exact mem_insertSparse _ _ _

/-- C5 witness: the frame property applied to a concrete one-parameter
state, a captured index list `[0]` and gradient `[[1]]`. -/
theorem C5_index_backward_sparse_frame_witness :
    (backwardC (envC2 0 0) (.index [[0]] [0] 0 0) [[1]] (freshPState (1, 1))) 1
      = freshPState (1, 1) 1 ∧
    ((backwardC (envC2 0 0) (.index [[0]] [0] 0 0) [[1]]
      (freshPState (1, 1))) 0).has_sparse = true :=
  ⟨(C5_index_backward_sparse_frame (envC2 0 0) (freshPState (1, 1)) [[0]] [0]
      0 0 [[1]]).2.2.1 1 (by decide),
    (C5_index_backward_sparse_frame (envC2 0 0) (freshPState (1, 1)) [[0]] [0]
      0 0 [[1]]).2.2.2.1⟩

/-- C9: the sparse slot list only grows when no empty slot exists
(accumulation keeps the length when some slot's index list is empty and
appends exactly one slot otherwise); `zero_gradient` keeps the slot
count; after any event history, `zero_gradient` leaves every slot with
an empty index list and an all-zero buffer; and no accumulator event
ever shrinks the slot list. -/
theorem C9_sparse_slot_reuse :
    (∀ (slots : List (List ℕ × Mat)) idx g,
      (insertSparse slots idx g).length =
        if slots.any (fun s => s.1.isEmpty) then slots.length
        else slots.length + 1) ∧
    (∀ acc : GradientAccumulator,
      (zero_gradient acc).sparse_gradient.length
        = acc.sparse_gradient.length) ∧
    (∀ (shape : ℕ × ℕ) (evs : List GradEvent),
      (zero_gradient (runEvents shape evs)).sparse_gradient.all slotClear
        = true) ∧
    (∀ (acc : GradientAccumulator) (e : GradEvent),
      acc.sparse_gradient.length ≤ (stepEvent acc e).sparse_gradient.length) := by
  refine ⟨length_insertSparse, fun acc => ?_, ?_, fun acc e => ?_⟩
  · by_cases hs : acc.has_sparse <;> simp [zero_gradient, hs]
  · intro shape evs
    exact zero_gradient_clears _ (sparseInv_runEvents shape evs)
  · cases e with
    | dense g => exact le_rfl
    | sparse idx g =>
      rw [stepEvent, accumulate_gradient_sparse]
      simp only [length_insertSparse]
      split
      · exact le_rfl
      · exact Nat.le_succ _
    | zero =>
      rw [stepEvent]
      by_cases hs : acc.has_sparse <;> simp [zero_gradient, hs]

/-- C8: after `zero_gradient`, the materialized gradient of a parameter
is exactly the zero array of its shape, for every prior history of
dense and sparse accumulations (and resets). -/
theorem C8_zero_gradient_resets (shape : ℕ × ℕ) (evs : List GradEvent) :
    materialized_gradient (zero_gradient (runEvents shape evs)) =
      zerosMat shape.1 shape.2 := by
  have hclear := zero_gradient_clears _ (sparseInv_runEvents shape evs)
  rw [materialized_gradient, foldl_scatter_clear _ _ hclear]
  have hd : (zero_gradient (runEvents shape evs)).has_dense = false := rfl
  rw [hd]
  simp only [Bool.false_eq_true, if_neg]
  have hsh : (zero_gradient (runEvents shape evs)).dense_shape = shape := by
    rw [show (zero_gradient (runEvents shape evs)).dense_shape
        = (runEvents shape evs).dense_shape from rfl]
    exact dense_shape_runEvents shape evs
  rw [hsh]
  simp

/-- C6: when row `r` of a `rows × cols` parameter is gathered through
two distinct index leaves and the two gathers are summed downstream,
running `backward(1.0)` after a fresh `zero_gradient` accumulates both
contributions onto row `r` of the materialized gradient — each entry of
row `r` is `2` — and every other row is zero. -/
theorem C6_sparse_row_accumulation (rows cols r : ℕ) (pv : Mat)
    (hpv : MatShape pv rows cols) (hr : r < rows) :
    materialized_gradient
      ((variable_backward (envC6 pv r) (construct (envC6 pv r) yExprC6) 1
        (variable_zero_gradient [0] (freshPState (rows, cols)))) 0) =
      (zerosMat rows cols).set r (List.replicate cols 2) := by
  have hrow : (pv.getD r []).length = cols := by
    have hlt : r < pv.length := by rw [hpv.1]; exact hr
    rw [List.getD_eq_getElem _ [] hlt]
    exact hpv.2 _ (List.getElem_mem hlt)
  have hst0 : variable_zero_gradient [0] (freshPState (rows, cols)) 0
      = GradientAccumulator.fresh (rows, cols) := rfl
  have hseed : fillLike (cvalue (envC6 pv r) (construct (envC6 pv r) yExprC6)) 1
      = [List.replicate cols 1] := by
    simp only [construct, yExprC6, envC6, cvalue, selectRows, List.map_cons,
      List.map_nil, fillLike, ewAdd, List.zipWith_cons_cons,
      List.zipWith_nil_right, List.map_const']
    rw [List.length_zipWith _ _ _, hrow, min_self]
  rw [variable_backward, hseed]
  have hacc : (backwardC (envC6 pv r) (construct (envC6 pv r) yExprC6)
      [List.replicate cols 1]
      (variable_zero_gradient [0] (freshPState (rows, cols)))) 0
      = { dense_shape := (rows, cols), dense_gradient := none,
          sparse_gradient :=
            [([r], [List.replicate cols 1]), ([r], [List.replicate cols 1])],
          has_dense := false, has_sparse := true } := by
    simp only [construct, yExprC6, envC6, backwardC]
    simp only [if_pos rfl, hst0]
    simp [accumulate_gradient_sparse, insertSparse, GradientAccumulator.fresh]
  rw [hacc]
  simp only [materialized_gradient]
  simp only [List.foldl_cons, List.foldl_nil, scatterAdd, List.zip_cons_cons,
    List.zip_nil_right, List.zip_nil_left, addRowAt, Bool.false_eq_true,
    if_false]
  rw [getD_zerosMat rows cols r hr]
  rw [zipWith_add_replicate]
  rw [getD_set_self_helper _ _ _ (by simp [zerosMat]; exact hr)]
  rw [zipWith_add_replicate]
  rw [List.set_set]
  norm_num

/-- C6 witness: the sparse accumulation property applied to a concrete
`3 × 2` parameter with both index leaves holding row `1`. -/
theorem C6_sparse_row_accumulation_witness :
    MatShape [[1, 1], [2, 2], [3, 3]] 3 2 ∧ (1 : ℕ) < 3 ∧
    materialized_gradient
      ((variable_backward (envC6 [[1, 1], [2, 2], [3, 3]] 1)
        (construct (envC6 [[1, 1], [2, 2], [3, 3]] 1) yExprC6) 1
        (variable_zero_gradient [0] (freshPState (3, 2)))) 0) =
      (zerosMat 3 2).set 1 (List.replicate 2 2) :=
  ⟨⟨rfl, by decide⟩, by decide,
    C6_sparse_row_accumulation 3 2 1 [[1, 1], [2, 2], [3, 3]]
      ⟨rfl, by decide⟩ (by decide)⟩

/-- C7: for a Dot node over an `m × k` left operand and a `k × n` right
operand (all dimensions positive), `forward` computes the matrix product
of the operands' current values, and `backward` with upstream gradient
`g` accumulates `g · rhsᵀ` into the left operand and `lhsᵀ · g` into
the right operand. -/
theorem C7_dot_forward_backward (lv rv g : Mat) (m k n : ℕ)
    (hl : MatShape lv m k) (hr : MatShape rv k n) (hg : MatShape g m n)
    (hm : 0 < m) (hk : 0 < k) (hn : 0 < n) :
    cvalue (envDot lv rv)
      (forwardC (envDot lv rv) (construct (envDot lv rv) dotExprC7))
      = matMul lv rv ∧
    ((backwardC (envDot lv rv) (construct (envDot lv rv) dotExprC7) g
        (stDot m k n)) 0).dense_gradient
      = some (matMul g (transposeM rv)) ∧
    ((backwardC (envDot lv rv) (construct (envDot lv rv) dotExprC7) g
        (stDot m k n)) 1).dense_gradient
      = some (matMul (transposeM lv) g) := by
  have hncr : numCols rv = n := numCols_of_shape rv k n hr hk
  have hncl : numCols lv = k := numCols_of_shape lv m k hl hm
  have hncg : numCols g = n := numCols_of_shape g m n hg hm
  refine ⟨?_, ?_, ?_⟩
  · simp [construct, forwardC, cvalue, envDot, dotExprC7]
  · have hb0 : (backwardC (envDot lv rv) (construct (envDot lv rv) dotExprC7)
        g (stDot m k n)) 0
        = accumulate_gradient_dense (.fresh (m, k))
            (matMul g (transposeM rv)) := by
      simp [construct, dotExprC7, backwardC, cvalue, envDot, stDot]
    rw [hb0, accumulate_gradient_dense]
    simp only [GradientAccumulator.fresh, GradientAccumulator.denseBuffer,
      Option.getD_none]
    have hshape : MatShape (matMul g (transposeM rv)) m k := by
      have h2 := matShape_matMul g (transposeM rv)
      rwa [hg.1, numCols_transposeM rv (by rw [hncr]; exact hn), hr.1] at h2
    rw [← hshape.1, ewAdd_zeros _ k hshape.2]
  · have hb1 : (backwardC (envDot lv rv) (construct (envDot lv rv) dotExprC7)
        g (stDot m k n)) 1
        = accumulate_gradient_dense (.fresh (k, n))
            (matMul (transposeM lv) g) := by
      simp [construct, dotExprC7, backwardC, cvalue, envDot, stDot]
    rw [hb1, accumulate_gradient_dense]
    simp only [GradientAccumulator.fresh, GradientAccumulator.denseBuffer,
      Option.getD_none]
    have hshape : MatShape (matMul (transposeM lv) g) k n := by
      have h2 := matShape_matMul (transposeM lv) g
      rwa [length_transposeM, hncl, hncg] at h2
    rw [← hshape.1, ewAdd_zeros _ n hshape.2]

/-- C7 witness: the Dot forward/backward property applied to the
concrete `1 × 1` operands `[[2]]`, `[[3]]` and upstream `[[5]]`. -/
theorem C7_dot_forward_backward_witness :
    MatShape [[(2 : ℚ)]] 1 1 ∧ MatShape [[(3 : ℚ)]] 1 1 ∧
    MatShape [[(5 : ℚ)]] 1 1 ∧
    ((backwardC (envDot [[(2 : ℚ)]] [[(3 : ℚ)]])
        (construct (envDot [[(2 : ℚ)]] [[(3 : ℚ)]]) dotExprC7) [[(5 : ℚ)]]
        (stDot 1 1 1)) 0).dense_gradient
      = some (matMul [[(5 : ℚ)]] (transposeM [[(3 : ℚ)]])) :=
  ⟨⟨rfl, by decide⟩, ⟨rfl, by decide⟩, ⟨rfl, by decide⟩,
    (C7_dot_forward_backward [[(2 : ℚ)]] [[(3 : ℚ)]] [[(5 : ℚ)]] 1 1 1
      ⟨rfl, by decide⟩ ⟨rfl, by decide⟩ ⟨rfl, by decide⟩ (by decide)
      (by decide) (by decide)).2.1⟩

/-- C3 counterexample: on the two-row input `[[0], [0]]` the softmax
forward pass normalizes by the sum over the *whole* array, so the first
row of the output sums to `1/2`, not `1`: the row-wise normalization
stated by the claim fails for inputs with more than one row. -/
theorem C3_softmax_counterexample :
    ((softmax_forward [[(0 : ℝ)], [0]]).headD []).sum = 1 / 2 ∧
    ((1 : ℝ) / 2) ≠ 1 := by
  constructor
  · have hmx : globalMax [[(0 : ℝ)], [0]] = 0 := by
      rw [globalMax]
      simp only [List.flatten_cons, List.flatten_nil, List.append_nil,
        List.foldl_cons, List.foldl_nil, List.singleton_append]
      have h1 : max f32_min (0 : ℝ) = 0 := max_eq_right (by norm_num [f32_min])
      rw [h1, max_self]
    rw [softmax_forward, hmx]
    simp [totalSum, Real.exp_zero]
    norm_num
  · norm_num

/-- C3 (amended): softmax forward shifts by the *global* maximum of the
whole array before exponentiating and then normalizes by the sum over
the *whole* array: for every nonempty input, each output entry equals
the exponential of that entry's max-shifted value divided by the global
sum, and the output sums to 1 over the entire array (hence each row
sums to 1 only when the input has a single row). -/
theorem C3_softmax_global_normalization (m : MatR) (hne : m.flatten ≠ []) :
    softmax_forward m
      = m.map (fun row => row.map (fun x =>
          Real.exp (x - globalMax m) /
            totalSum (m.map (fun row => row.map (fun y =>
              Real.exp (y - globalMax m)))))) ∧
    totalSum (softmax_forward m) = 1 := by
  constructor
  · rw [softmax_forward]
    simp only [List.map_map, Function.comp_def]
  · rw [softmax_forward]
    rw [totalSum_map_div]
    have hpos : 0 < totalSum (m.map (fun row => row.map (fun x =>
        Real.exp (x - globalMax m)))) := by
      rw [totalSum_eq_flatten_sum, ← List.map_flatten]
      refine List.sum_pos _ ?_ ?_
      · intro a ha
        obtain ⟨x, _, rfl⟩ := List.mem_map.mp ha
        exact Real.exp_pos _
      · simpa using hne
    exact div_self (ne_of_gt hpos)

/-- C3 witness: the global-normalization property applied to the
concrete single-row input `[[0]]`, whose softmax output sums to 1. -/
theorem C3_softmax_global_normalization_witness :
    ([[(0 : ℝ)]] : MatR).flatten ≠ [] ∧
    totalSum (softmax_forward [[(0 : ℝ)]]) = 1 :=
  ⟨by simp, (C3_softmax_global_normalization [[(0 : ℝ)]] (by simp)).2⟩

end Wyrm
